import Mathlib

/-!
Verification of the notary client-side trust engine against its
natural-language specification.

The development embeds, as executable Lean definitions:

* the signed-metadata repository's targets/delegations data model and the
  change applier (`applyTargetsChange` / `applyChangelist`), whose
  implementation is exercised (but not contained) by the repository's
  `helpers_test.go` tests — these are modelled from the spec, section 4.2;
* the orchestrator control flow of `client/client.go`
  (`Initialize`, `Publish`, `bootstrapRepo`, `bootstrapClient`,
  `ListTargets`, `GetTargetByName`), embedded over explicit "world"
  records that supply the outcome of each effectful sub-step, with
  event traces where ordering matters.
-/

namespace Notary

/-! ## Association-list primitives (Go maps with string keys) -/
/-- Look up the value bound to key `k` in an association list. -/
def alGet {β : Type} (k : String) : List (String × β) → Option β
  | [] => none
  | (k', v) :: rest => if k = k' then some v else alGet k rest

/-- Bind key `k` to `v`, replacing the first existing binding or appending. -/
def alSet {β : Type} (k : String) (v : β) : List (String × β) → List (String × β)
  | [] => [(k, v)]
  | (k', v') :: rest => if k = k' then (k, v) :: rest else (k', v') :: alSet k v rest

/-- Delete every binding of key `k`. -/
def alDel {β : Type} (k : String) : List (String × β) → List (String × β)
  | [] => []
  | (k', v') :: rest => if k = k' then alDel k rest else (k', v') :: alDel k rest

/-- Apply `f` to the value bound to key `k` (all occurrences), as a total map. -/
def alMod {β : Type} (k : String) (f : β → β) : List (String × β) → List (String × β)
  | [] => []
  | (k', v) :: rest => (k', if k' = k then f v else v) :: alMod k f rest

/-- Boolean membership in a list of strings. -/
def memS (k : String) : List String → Bool
  | [] => false
  | x :: rest => if x = k then true else memS k rest

/-! ## Data model: targets files, delegations, repository
Modelled from the spec: section 3 (data model).  Public keys are
represented by their key-IDs; a parent's `delegations.keys` key map is a
list of key-IDs, and each delegated role holds key-IDs, a threshold and
path scopes. -/
/-- File metadata for a target: a length and named hash digests. -/
structure FileMeta where
  length : Int
  hashes : List (String × String)
deriving DecidableEq, Repr

/-- A delegated role record held in a parent's `delegations.roles`. -/
structure DelegationRole where
  name : String
  keyIDs : List String
  threshold : Nat
  paths : List String
  pathHashPrefixes : List String
deriving DecidableEq, Repr

/-- The `delegations` block of a targets file: key map plus role list. -/
structure Delegations where
  keys : List String
  roles : List DelegationRole
deriving DecidableEq, Repr

/-- One targets role's signed content: a target map and its delegations. -/
structure TargetsFile where
  targets : List (String × FileMeta)
  delegations : Delegations
deriving DecidableEq, Repr

/-- The in-memory repository: the map from targets role names
(`targets`, `targets/a`, ...) to their targets files. -/
structure Repo where
  targets : List (String × TargetsFile)
deriving DecidableEq, Repr

/-! ## Changes
Modelled from the spec: section 3.2 (the `Change` entity) and the
`changelist` package constants exercised by `helpers_test.go`. -/
def actionCreate : String := "create"

def actionUpdate : String := "update"

def actionDelete : String := "delete"

def typeTargetsTarget : String := "target"

def typeTargetsDelegation : String := "delegation"

/-- A delegation-mutation payload (`TufDelegation` in the changelist
package): key and path edits applied by delegation create/update changes. -/
structure TufDelegation where
  newThreshold : Nat
  addKeys : List String
  removeKeys : List String
  addPaths : List String
  removePaths : List String
  addPathHashPrefixes : List String
  removePathHashPrefixes : List String
  clearAllPaths : Bool
deriving DecidableEq, Repr

/-- The decoded content of a change, per change type. -/
inductive ChangeContent
  | targetMeta (f : FileMeta)
  | delegation (d : TufDelegation)
  | empty
deriving DecidableEq, Repr

/-- One staged change (`TufChange`): an action, a scope (the role being
mutated), a change type, a target path and decoded content. -/
structure TufChange where
  action : String
  scope : String
  changeType : String
  path : String
  content : ChangeContent
deriving DecidableEq, Repr

/-- Errors surfaced by the change applier. -/
inductive ApplyError
  | invalidRole (role reason : String)
  | noSuchRole (role : String)
  | invalidAction (a : String)
  | invalidType (t : String)
  | badContent
deriving DecidableEq, Repr

/-! ## The change applier
Modelled from the spec: section 4.2.  The implementation of
`applyTargetsChange` / `applyChangelist` (client/helpers.go) is not part
of the sources here — only its tests are — so the applier is rebuilt
from the spec's step-by-step description of target and delegation
change application. -/
/-- Split a character list at every `/`. -/
def splitSlash : List Char → List (List Char)
  | [] => [[]]
  | c :: rest =>
    if c = '/' then [] :: splitSlash rest
    else match splitSlash rest with
      | [] => [[c]]
      | seg :: segs => (c :: seg) :: segs

/-- The `/`-separated segments of a role name. -/
def splitRole (name : String) : List String :=
  (splitSlash name.data).map (fun cs => ⟨cs⟩)

/-- Rejoin role-name segments with `/`. -/
def joinSlash : List String → String
  | [] => ""
  | [s] => s
  | s :: rest => s ++ "/" ++ joinSlash rest

/-- The parent of a delegated role: its name up to the last `/`. -/
def parentRole (name : String) : String :=
  joinSlash (splitRole name).dropLast

/-- Modelled from the spec: section 3.1 — delegated role names start
with `targets/` and form a `/`-separated hierarchy of nonempty segments. -/
def isValidDelegationName (name : String) : Bool :=
  match splitRole name with
  | first :: rest => first = "targets" && !rest.isEmpty && rest.all (fun s => !s.isEmpty)
  | [] => false

/-- Append the members of `b` not already present in `a` (key-ID /
path-list union, preserving order of first occurrence). -/
def unionL (a b : List String) : List String :=
  a ++ b.filter (fun x => !memS x a)

/-- Is key-ID `k` referenced by some delegated role in `roles`? -/
def referenced (k : String) (roles : List DelegationRole) : Bool :=
  roles.any (fun r => memS k r.keyIDs)

/-- Garbage-collect: keep only the keys referenced by some role.
Modelled from the spec: section 4.2 — "any keys that remain unreferenced
by any delegated role of the parent are removed". -/
def gcKeys (roles : List DelegationRole) (keys : List String) : List String :=
  keys.filter (fun k => referenced k roles)

/-- True when a role would end up with both `paths` and
`pathHashPrefixes` populated — the forbidden combination. -/
def delegationConflict (paths pxs : List String) : Bool :=
  !paths.isEmpty && !pxs.isEmpty

/-- Find the delegated role named `scope` in a role list. -/
def findRole (scope : String) : List DelegationRole → Option DelegationRole
  | [] => none
  | r :: rest => if r.name = scope then some r else findRole scope rest

/-- Modelled from the spec: section 4.2, delegation `create` steps 3-5.
The parent's extantness and the name validity (steps 1-2) are checked by
the caller `applyDelegationChange`. -/
def createDelegation (td : TufDelegation) (scope : String) (ptf : TargetsFile) :
    Except ApplyError TargetsFile :=
  if ptf.delegations.roles.any (fun r => r.name = scope) then
    .error (.invalidRole scope "role already exists")
  else if delegationConflict td.addPaths td.addPathHashPrefixes then
    .error (.invalidRole scope "roles with both paths and path hash prefixes are not allowed")
  else
    .ok { ptf with delegations :=
      ⟨unionL ptf.delegations.keys td.addKeys,
       ptf.delegations.roles ++
         [⟨scope, td.addKeys, td.newThreshold, td.addPaths, td.addPathHashPrefixes⟩]⟩ }

/-- Modelled from the spec: section 4.2, delegation `update` step 2 —
remove then add keys, update a nonzero threshold, clear-then-edit the
path lists. -/
def updatedRole (role : DelegationRole) (td : TufDelegation) : DelegationRole :=
  let keyIDs := unionL (role.keyIDs.filter (fun k => !memS k td.removeKeys)) td.addKeys
  let thr := if td.newThreshold ≠ 0 then td.newThreshold else role.threshold
  let basePaths := if td.clearAllPaths then [] else role.paths
  let basePxs := if td.clearAllPaths then [] else role.pathHashPrefixes
  let paths := unionL (basePaths.filter (fun p => !memS p td.removePaths)) td.addPaths
  let pxs := unionL (basePxs.filter (fun p => !memS p td.removePathHashPrefixes))
    td.addPathHashPrefixes
  ⟨role.name, keyIDs, thr, paths, pxs⟩

/-- Modelled from the spec: section 4.2, delegation `update` steps 1-4.
On post-condition failure the parent file is returned unmodified inside
the error, which is the rollback of the in-memory mutation. -/
def updateDelegation (td : TufDelegation) (scope : String) (ptf : TargetsFile) :
    Except ApplyError TargetsFile :=
  match findRole scope ptf.delegations.roles with
  | none => .error (.noSuchRole scope)
  | some role =>
    if delegationConflict (updatedRole role td).paths (updatedRole role td).pathHashPrefixes then
      .error (.invalidRole scope "roles with both paths and path hash prefixes are not allowed")
    else
      .ok { ptf with delegations :=
        ⟨gcKeys
          (ptf.delegations.roles.map (fun r => if r.name = scope then updatedRole role td else r))
          (unionL ptf.delegations.keys td.addKeys),
         ptf.delegations.roles.map (fun r => if r.name = scope then updatedRole role td else r)⟩ }

/-- Modelled from the spec: section 4.2, delegation `delete` — remove
the role from the parent's role list (a missing role is not an error)
and garbage-collect orphaned keys. -/
def deleteDelegation (scope : String) (ptf : TargetsFile) : TargetsFile :=
  { ptf with delegations :=
    ⟨gcKeys (ptf.delegations.roles.filter (fun r => r.name ≠ scope)) ptf.delegations.keys,
     ptf.delegations.roles.filter (fun r => r.name ≠ scope)⟩ }

/-- Modelled from the spec: section 4.2, target changes — `create`
decodes a FileMeta and sets `targets[path]` in an extant targets role
(overwrite permitted); `delete` removes `targets[path]`, a missing path
not being an error; other actions are rejected. -/
def applyTargetChange (repo : Repo) (ch : TufChange) : Except ApplyError Repo :=
  if ch.action = actionCreate then
    match ch.content with
    | .targetMeta f =>
      match alGet ch.scope repo.targets with
      | none => .error (.invalidRole ch.scope "targets role does not exist")
      | some _ => .ok ⟨alMod ch.scope
          (fun tf => { tf with targets := alSet ch.path f tf.targets }) repo.targets⟩
    | _ => .error .badContent
  else if ch.action = actionDelete then
    match alGet ch.scope repo.targets with
    | none => .error (.invalidRole ch.scope "targets role does not exist")
    | some _ => .ok ⟨alMod ch.scope
        (fun tf => { tf with targets := alDel ch.path tf.targets }) repo.targets⟩
  else .error (.invalidAction ch.action)

/-- Modelled from the spec: section 4.2, delegation changes — dispatch
on the action; the scope names the delegated role being mutated and its
parent is derived by stripping the final name segment. -/
def applyDelegationChange (repo : Repo) (ch : TufChange) : Except ApplyError Repo :=
  if ch.action = actionCreate then
    match ch.content with
    | .delegation td =>
      match alGet (parentRole ch.scope) repo.targets with
      | none => .error (.invalidRole ch.scope "parent targets role does not exist")
      | some ptf =>
        if !isValidDelegationName ch.scope then
          .error (.invalidRole ch.scope "invalid delegation role name")
        else
          match createDelegation td ch.scope ptf with
          | .error e => .error e
          | .ok tf' => .ok ⟨alMod (parentRole ch.scope) (fun _ => tf') repo.targets⟩
    | _ => .error .badContent
  else if ch.action = actionUpdate then
    match ch.content with
    | .delegation td =>
      match alGet (parentRole ch.scope) repo.targets with
      | none => .error (.noSuchRole ch.scope)
      | some ptf =>
        match updateDelegation td ch.scope ptf with
        | .error e => .error e
        | .ok tf' => .ok ⟨alMod (parentRole ch.scope) (fun _ => tf') repo.targets⟩
    | _ => .error .badContent
  else if ch.action = actionDelete then
    match alGet (parentRole ch.scope) repo.targets with
    | none => .ok repo
    | some ptf =>
      .ok ⟨alMod (parentRole ch.scope) (fun _ => deleteDelegation ch.scope ptf) repo.targets⟩
  else .error (.invalidAction ch.action)

/-- Modelled from the spec: section 4.2 — the applier dispatches on the
change type.  Root-role changes, which no claim exercises, are outside
this model and fall into the rejected-type branch. -/
def applyTargetsChange (repo : Repo) (ch : TufChange) : Except ApplyError Repo :=
  if ch.changeType = typeTargetsTarget then applyTargetChange repo ch
  else if ch.changeType = typeTargetsDelegation then applyDelegationChange repo ch
  else .error (.invalidType ch.changeType)

/-- Modelled from the spec: section 4.2 replay semantics — changes are
applied in insertion order and the first error aborts the replay. -/
def applyChangelist (repo : Repo) : List TufChange → Except ApplyError Repo
  | [] => .ok repo
  | ch :: rest =>
    match applyTargetsChange repo ch with
    | .error e => .error e
    | .ok repo' => applyChangelist repo' rest

/-! ## Repository invariants (spec section 8, universal invariants 2 and 3) -/
/-- Invariant 2 for one delegated role: `paths` and `pathHashPrefixes`
are not both non-empty. -/
def roleOKB (r : DelegationRole) : Bool :=
  r.paths.isEmpty || r.pathHashPrefixes.isEmpty

/-- Invariant 2 for all delegations of one targets file. -/
def filePathsOK (tf : TargetsFile) : Bool :=
  tf.delegations.roles.all roleOKB

/-- Invariant 2 for the whole repository. -/
def repoPathsInvB (repo : Repo) : Bool :=
  repo.targets.all (fun e => filePathsOK e.2)

/-- Invariant 3 for one targets file: every key in `delegations.keys` is
referenced by some delegation, and every key-ID referenced by a
delegation appears in `delegations.keys`. -/
def fileKeysOK (tf : TargetsFile) : Bool :=
  tf.delegations.keys.all (fun k => referenced k tf.delegations.roles) &&
  tf.delegations.roles.all (fun r => r.keyIDs.all (fun k => memS k tf.delegations.keys))

/-- Invariant 3 for the whole repository. -/
def repoKeysInvB (repo : Repo) : Bool :=
  repo.targets.all (fun e => fileKeysOK e.2)

/-! ## Concrete change constructors (as built by the orchestrator / tests) -/
/-- A `create(target)` change: `NewTufChange(ActionCreate, scope, TypeTargetsTarget, path, meta)`. -/
def mkCreateTarget (scope path : String) (f : FileMeta) : TufChange :=
  ⟨actionCreate, scope, typeTargetsTarget, path, .targetMeta f⟩

/-- A `delete(target)` change: `NewTufChange(ActionDelete, scope, TypeTargetsTarget, path, nil)`. -/
def mkDeleteTarget (scope path : String) : TufChange :=
  ⟨actionDelete, scope, typeTargetsTarget, path, .empty⟩

/-- A `create(delegation)` change carrying a `TufDelegation` payload. -/
def mkCreateDelegation (scope : String) (td : TufDelegation) : TufChange :=
  ⟨actionCreate, scope, typeTargetsDelegation, "", .delegation td⟩

/-- A `delete(delegation)` change with empty payload. -/
def mkDeleteDelegation (scope : String) : TufChange :=
  ⟨actionDelete, scope, typeTargetsDelegation, "", .empty⟩

/-- The parent targets file produced by a successful delegation create:
the new role appended, its keys unioned into the parent's key map. -/
def createdFile (ptf : TargetsFile) (scope : String) (td : TufDelegation) : TargetsFile :=
  ⟨ptf.targets,
   ⟨unionL ptf.delegations.keys td.addKeys,
    ptf.delegations.roles ++
      [⟨scope, td.addKeys, td.newThreshold, td.addPaths, td.addPathHashPrefixes⟩]⟩⟩

/-- An `update(delegation)` change carrying a `TufDelegation` payload. -/
def mkUpdateDelegation (scope : String) (td : TufDelegation) : TufChange :=
  ⟨actionUpdate, scope, typeTargetsDelegation, "", .delegation td⟩

/-! ## Concrete instances used by the witnesses -/
/-- The `FileMeta` used in the tests: length 1 with a sha256 digest. -/
def fmW : FileMeta := ⟨1, [("sha256", "e3b0c44298fc1c149afbf4c8996fb924")]⟩

/-- A fresh base targets file with no targets and no delegations. -/
def tfEmptyW : TargetsFile := ⟨[], ⟨[], []⟩⟩

/-- A fresh repository holding only the base `targets` role. -/
def repoW : Repo := ⟨[("targets", tfEmptyW)]⟩

/-- A delegation payload adding one key and the path `level1`. -/
def tdW : TufDelegation := ⟨1, ["key1"], [], ["level1"], [], [], [], false⟩

/-- A delegation payload adding both a path and a path-hash prefix. -/
def tdConflictW : TufDelegation := ⟨1, ["key1"], [], ["level1"], [], ["abc"], [], false⟩

/-- `repoW` after creating the delegation `targets/level1` from `tdW`. -/
def repoW2 : Repo :=
  ⟨[("targets", ⟨[], ⟨["key1"], [⟨"targets/level1", ["key1"], 1, ["level1"], []⟩]⟩⟩)]⟩

/-! ## Orchestrator embedding: errors and effect worlds
The functions of `client/client.go` are sequences of effectful calls
whose results decide the control flow.  Each function is embedded over a
"world" record supplying the outcome of every call, and the embedding
reproduces the Go function's branching on those outcomes exactly. -/
/-- Error kinds the orchestrator code branches on (type assertions in Go):
`store.ErrMetaNotFound`, `signed.ErrNoKeys`, `signed.ErrExpired`,
`ErrInvalidRemoteRole`, plus untyped other errors. -/
inductive Err
  | metaNotFound (role : String)
  | serverUnavailable (code : Nat)
  | noKeys
  | expired (role : String)
  | invalidRemoteRole (role : String)
  | other (msg : String)
deriving DecidableEq, Repr

/-- The `_, ok := err.(store.ErrMetaNotFound)` type assertion. -/
def isMetaNotFound : Err → Bool
  | .metaNotFound _ => true
  | _ => false

/-- Sequence two steps, propagating the first error (Go early return). -/
def exSeq (a : Except Err Unit) (b : Except Err Unit) : Except Err Unit :=
  match a with
  | .error e => .error e
  | .ok _ => b

def canonicalRootRole : String := "root"

def canonicalTargetsRole : String := "targets"

def canonicalSnapshotRole : String := "snapshot"

def canonicalTimestampRole : String := "timestamp"

/-- Outcomes of the effectful steps of `bootstrapRepo` (client.go):
local `GetMeta`/`json.Unmarshal`/`SetX` for root, targets, snapshot.
The Go code ignores the return values of `SetTargets` and `SetSnapshot`,
so those steps have no outcome here. -/
structure BRWorld where
  getRoot : Except Err Unit
  unmarshalRoot : Except Err Unit
  setRoot : Except Err Unit
  getTargets : Except Err Unit
  unmarshalTargets : Except Err Unit
  getSnapshot : Except Err Unit
  unmarshalSnapshot : Except Err Unit

/-- `bootstrapRepo` (client.go): load root, targets and snapshot from
the local MetadataStore; a snapshot `ErrMetaNotFound` is tolerated, any
other snapshot load error propagates. -/
def bootstrapRepo (w : BRWorld) : Except Err Unit :=
  exSeq w.getRoot (exSeq w.unmarshalRoot (exSeq w.setRoot (exSeq w.getTargets
    (exSeq w.unmarshalTargets
      (match w.getSnapshot with
       | .ok _ =>
         (match w.unmarshalSnapshot with
          | .error e => .error e
          | .ok _ => .ok ())
       | .error e => if isMetaNotFound e then .ok () else .error e)))))

/-- What a completed `Publish` leaves behind: the role names pushed via
`SetMultiMeta`, and the state of the changelist after the `Clear` step. -/
structure PubOut where
  pushed : List String
  changelistAfter : List String
deriving DecidableEq, Repr

/-- Outcomes of the effectful steps of `Publish` (client.go), plus the
repository facts `Publish` reads (`nearExpiry`, `Root.Dirty`, whether a
snapshot object exists).  `serverManagedSnapshotInRoot` records whether
the Root designates the snapshot role as server-managed; it is part of
the repository state available to `Publish`. -/
structure PubWorld where
  bootstrapClient : Except Err Unit
  clientUpdate : Except Err Unit
  br : BRWorld
  changelist : List String
  getChangelist : Except Err Unit
  applyCl : Except Err Unit
  nearExpiryRoot : Bool
  rootDirty : Bool
  serializeRoot : Except Err Unit
  serializeTargets : Except Err Unit
  snapshotPresent : Bool
  initSnapshot : Except Err Unit
  serializeSnapshot : Except Err Unit
  serverManagedSnapshotInRoot : Bool
  getRemoteStore : Except Err Unit
  setMultiMeta : Except Err Unit
  clearOk : Bool

/-- The root entry of `updatedFiles`: present iff near-expiry, dirty, or
`updateRoot` was forced by the local-bootstrap path. -/
def rootFilesFor (w : PubWorld) (updateRoot : Bool) : Except Err (List String) :=
  if w.nearExpiryRoot || w.rootDirty || updateRoot then
    match w.serializeRoot with
    | .error e => .error e
    | .ok _ => .ok [canonicalRootRole]
  else .ok []

/-- The snapshot entry of `updatedFiles`: included when signing
succeeds, omitted when signing fails with `ErrNoKeys`, fatal otherwise. -/
def snapshotFiles (w : PubWorld) : Except Err (List String) :=
  match w.serializeSnapshot with
  | .ok _ => .ok [canonicalSnapshotRole]
  | .error .noKeys => .ok []
  | .error e => .error e

/-- The `updatedFiles` map built by `Publish` after applying the
changelist: root (conditionally), targets (always), snapshot (per
`snapshotFiles`, after `InitSnapshot` when no snapshot object exists). -/
def computeUpdatedFiles (w : PubWorld) (updateRoot : Bool) : Except Err (List String) :=
  match rootFilesFor w updateRoot with
  | .error e => .error e
  | .ok rfs =>
    match w.serializeTargets with
    | .error e => .error e
    | .ok _ =>
      match (if w.snapshotPresent then Except.ok () else w.initSnapshot) with
      | .error e => .error e
      | .ok _ =>
        match snapshotFiles w with
        | .error e => .error e
        | .ok sfs => .ok (rfs ++ [canonicalTargetsRole] ++ sfs)

/-- The steps of `Publish` from `GetChangelist` up to and including the
push: apply the changelist, build `updatedFiles`, and send them. -/
def pushFiles (w : PubWorld) (updateRoot : Bool) : Except Err (List String) :=
  match w.getChangelist with
  | .error e => .error e
  | .ok _ =>
    match w.applyCl with
    | .error e => .error e
    | .ok _ =>
      match computeUpdatedFiles w updateRoot with
      | .error e => .error e
      | .ok files =>
        match w.getRemoteStore with
        | .error e => .error e
        | .ok _ =>
          match w.setMultiMeta with
          | .error e => .error e
          | .ok _ => .ok files

/-- After a successful push, `Clear` drains the changelist; a `Clear`
failure is only logged and does not change the result. -/
def publishAfterPull (w : PubWorld) (updateRoot : Bool) : Except Err PubOut :=
  match pushFiles w updateRoot with
  | .error e => .error e
  | .ok files => .ok ⟨files, if w.clearOk then [] else w.changelist⟩

/-- The bootstrap phase of `Publish`: try `bootstrapClient`; on
`ErrMetaNotFound` fall back to `bootstrapRepo` and force the root into
the push (`.ok true`); any other bootstrap error is fatal; on success,
pull the rest of the metadata via `Update`. -/
def publishPull (w : PubWorld) : Except Err Bool :=
  match w.bootstrapClient with
  | .ok _ =>
    match w.clientUpdate with
    | .error e => .error e
    | .ok _ => .ok false
  | .error e =>
    if isMetaNotFound e then
      match bootstrapRepo w.br with
      | .error e2 => .error e2
      | .ok _ => .ok true
    else .error e

/-- `Publish` (client.go): bootstrap/pull, apply the changelist, re-sign,
push, clear. -/
def publish (w : PubWorld) : Except Err PubOut :=
  match publishPull w with
  | .error e => .error e
  | .ok u => publishAfterPull w u

/-- A world identical to `w` except for the `Clear` outcome. -/
def setClearOk (w : PubWorld) (b : Bool) : PubWorld :=
  ⟨w.bootstrapClient, w.clientUpdate, w.br, w.changelist, w.getChangelist, w.applyCl,
   w.nearExpiryRoot, w.rootDirty, w.serializeRoot, w.serializeTargets, w.snapshotPresent,
   w.initSnapshot, w.serializeSnapshot, w.serverManagedSnapshotInRoot, w.getRemoteStore,
   w.setMultiMeta, b⟩

/-- A world identical to `w` except for whether the Root designates the
snapshot role as server-managed. -/
def setServerManagedSnapshot (w : PubWorld) (b : Bool) : PubWorld :=
  ⟨w.bootstrapClient, w.clientUpdate, w.br, w.changelist, w.getChangelist, w.applyCl,
   w.nearExpiryRoot, w.rootDirty, w.serializeRoot, w.serializeTargets, w.snapshotPresent,
   w.initSnapshot, w.serializeSnapshot, b, w.getRemoteStore,
   w.setMultiMeta, w.clearOk⟩

/-- A local `BRWorld` whose loads all succeed. -/
def brOkW : BRWorld := ⟨.ok (), .ok (), .ok (), .ok (), .ok (), .ok (), .ok ()⟩

/-- A local `BRWorld` whose snapshot is absent (server-managed case). -/
def brNoSnapshotW : BRWorld :=
  ⟨.ok (), .ok (), .ok (), .ok (), .ok (), .error (.metaNotFound "snapshot"), .ok ()⟩

/-- A `Publish` world: first publish of a local-only repo (remote knows
nothing, local snapshot absent), everything else succeeding. -/
def pubW5 : PubWorld :=
  ⟨.error (.metaNotFound "root"), .ok (), brNoSnapshotW, ["change0"], .ok (), .ok (),
   false, false, .ok (), .ok (), false, .ok (), .ok (), false, .ok (), .ok (), true⟩

/-- A `Publish` world where the client cannot sign the snapshot
(`ErrNoKeys`) while the Root does *not* designate the snapshot role as
server-managed; everything else succeeds. -/
def pubW6 : PubWorld :=
  ⟨.ok (), .ok (), brOkW, ["change0"], .ok (), .ok (), false, false, .ok (), .ok (),
   true, .ok (), .error .noKeys, false, .ok (), .ok (), true⟩

/-- A successful ordinary `Publish` world (remote bootstrap succeeds). -/
def pubW9 : PubWorld :=
  ⟨.ok (), .ok (), brOkW, ["change0"], .ok (), .ok (), false, false, .ok (), .ok (),
   true, .ok (), .ok (), false, .ok (), .ok (), true⟩

/-! ## `bootstrapClient` (client.go): remote root with local-cache fallback -/
/-- Observable steps of `bootstrapClient`, in execution order. -/
inductive BCEvent
  | remoteSetup
  | remoteGet
  | cacheGet
  | validate
  | setRoot
deriving DecidableEq, Repr

/-- Outcomes of the effectful steps of `bootstrapClient`.  Root bytes and
decoded objects are abstracted as numbers. -/
structure BCWorld where
  remoteSetup : Except Err Unit
  remoteGetRoot : Except Err Nat
  cacheGetRoot : Except Err Nat
  unmarshalRoot : Nat → Except Err Nat
  validateRoot : Nat → Except Err Unit
  rootFromSigned : Nat → Except Err Nat
  setRoot : Nat → Except Err Unit

def prependEvents (pre : List BCEvent) (r : Except Err Unit × List BCEvent) :
    Except Err Unit × List BCEvent :=
  (r.1, pre ++ r.2)

/-- The tail of `bootstrapClient` once root bytes are in hand:
unmarshal, `ValidateRoot` against the CertManager, decode, `SetRoot`. -/
def bcFinish (w : BCWorld) (rootJSON : Nat) : Except Err Unit × List BCEvent :=
  match w.unmarshalRoot rootJSON with
  | .error e => (.error e, [])
  | .ok s =>
    match w.validateRoot s with
    | .error e => (.error e, [.validate])
    | .ok _ =>
      match w.rootFromSigned s with
      | .error e => (.error e, [.validate])
      | .ok sr =>
        match w.setRoot sr with
        | .error e => (.error e, [.validate, .setRoot])
        | .ok _ => (.ok (), [.validate, .setRoot])

/-- `bootstrapClient` (client.go): set up the remote store and fetch the
root from it; on a combined error that is `ErrMetaNotFound`, return it
immediately; on any other error consult the local cache and proceed with
the cached root, returning the original remote error only if the cache
cannot supply one. -/
def bootstrapClient (w : BCWorld) : Except Err Unit × List BCEvent :=
  match w.remoteSetup with
  | .ok _ =>
    match w.remoteGetRoot with
    | .ok rootJSON => prependEvents [.remoteSetup, .remoteGet] (bcFinish w rootJSON)
    | .error e =>
      if isMetaNotFound e then (.error e, [.remoteSetup, .remoteGet])
      else
        match w.cacheGetRoot with
        | .error _ => (.error e, [.remoteSetup, .remoteGet, .cacheGet])
        | .ok rootJSON =>
          prependEvents [.remoteSetup, .remoteGet, .cacheGet] (bcFinish w rootJSON)
  | .error e =>
    if isMetaNotFound e then (.error e, [.remoteSetup])
    else
      match w.cacheGetRoot with
      | .error _ => (.error e, [.remoteSetup, .cacheGet])
      | .ok rootJSON => prependEvents [.remoteSetup, .cacheGet] (bcFinish w rootJSON)

/-- A `bootstrapClient` world where the remote server answers 500 for
the root but the local cache has one, and trust validation succeeds. -/
def bcW : BCWorld :=
  ⟨.ok (), .error (.serverUnavailable 500), .ok 7,
   fun b => .ok b, fun _ => .ok (), fun s => .ok s, fun _ => .ok ()⟩

/-! ## `Initialize` (client.go): role validation, local-then-remote keys -/
/-- Key acquisition events during `Initialize`: a local
`CryptoService.Create` call, or a remote key fetch (an HTTP request). -/
inductive InitEvent
  | createLocal (role : String)
  | httpKeyFetch (role : String)
deriving DecidableEq, Repr

/-- Outcomes of the effectful steps of `Initialize`. -/
structure InitWorld where
  getPrivateKey : Except Err Unit
  generateCert : Except Err Unit
  rootKeyAlgoOK : Bool
  addRootKey : Except Err Unit
  createKey : String → Except Err Unit
  addLocalKey : String → Except Err Unit
  getRemoteKey : String → Except Err Unit
  addRemoteKey : String → Except Err Unit
  initRoot : Except Err Unit
  initTargets : Except Err Unit
  initSnapshot : Except Err Unit
  saveMetadata : Except Err Unit

/-- The locally and remotely managed role lists as computed by the
`serverManagedRoles` loop of `Initialize`. -/
structure ManagedRoles where
  locallyManaged : List String
  remotelyManaged : List String
  serverManagesSnapshot : Bool
deriving DecidableEq, Repr

/-- `Initialize`'s starting split: targets and snapshot are locally
managed, timestamp is always remotely managed. -/
def startingManagedRoles : ManagedRoles :=
  ⟨[canonicalTargetsRole, canonicalSnapshotRole], [canonicalTimestampRole], false⟩

/-- The `serverManagedRoles` validation loop of `Initialize`: timestamp
is skipped (already remote), snapshot moves snapshot to the remote side,
anything else is `ErrInvalidRemoteRole`. -/
def managedRolesLoop : List String → ManagedRoles → Except Err ManagedRoles
  | [], acc => .ok acc
  | r :: rest, acc =>
    if r = canonicalTimestampRole then managedRolesLoop rest acc
    else if r = canonicalSnapshotRole then
      managedRolesLoop rest
        ⟨[canonicalTargetsRole], acc.remotelyManaged ++ [canonicalSnapshotRole], true⟩
    else .error (.invalidRemoteRole r)

/-- The local key-creation loop of `Initialize`: for each locally
managed role, `CryptoService.Create` then bind the key; the first error
aborts. -/
def createLocalKeys (w : InitWorld) : List String → Except Err Unit × List InitEvent
  | [] => (.ok (), [])
  | r :: rest =>
    match w.createKey r with
    | .error e => (.error e, [.createLocal r])
    | .ok _ =>
      match w.addLocalKey r with
      | .error e => (.error e, [.createLocal r])
      | .ok _ =>
        match createLocalKeys w rest with
        | (res, evs) => (res, .createLocal r :: evs)

/-- The remote key-fetch loop of `Initialize`: for each remotely managed
role, `getRemoteKey` (an HTTP request) then bind the key. -/
def fetchRemoteKeys (w : InitWorld) : List String → Except Err Unit × List InitEvent
  | [] => (.ok (), [])
  | r :: rest =>
    match w.getRemoteKey r with
    | .error e => (.error e, [.httpKeyFetch r])
    | .ok _ =>
      match w.addRemoteKey r with
      | .error e => (.error e, [.httpKeyFetch r])
      | .ok _ =>
        match fetchRemoteKeys w rest with
        | (res, evs) => (res, .httpKeyFetch r :: evs)

/-- The tail of `Initialize` after both key loops: `InitRoot`,
`InitTargets(targets)`, `InitSnapshot`, then persist to the local store. -/
def initTail (w : InitWorld) (sms : Bool) : Except Err Bool :=
  exSeq w.initRoot (exSeq w.initTargets (exSeq w.initSnapshot w.saveMetadata)) |>.map
    (fun _ => sms)

/-- `Initialize` (client.go): load the root private key, validate
`serverManagedRoles`, generate the root certificate, then create all
local keys before fetching any remote key, and build and save the fresh
repository.  Returns whether the server manages the snapshot, plus the
trace of key-acquisition events. -/
def Initialize (w : InitWorld) (serverManagedRoles : List String) :
    Except Err Bool × List InitEvent :=
  match w.getPrivateKey with
  | .error e => (.error e, [])
  | .ok _ =>
    match managedRolesLoop serverManagedRoles startingManagedRoles with
    | .error e => (.error e, [])
    | .ok mr =>
      match w.generateCert with
      | .error e => (.error e, [])
      | .ok _ =>
        if w.rootKeyAlgoOK = false then (.error (.other "invalid root key format"), [])
        else
          match w.addRootKey with
          | .error e => (.error e, [])
          | .ok _ =>
            match createLocalKeys w mr.locallyManaged with
            | (.error e, levs) => (.error e, levs)
            | (.ok _, levs) =>
              match fetchRemoteKeys w mr.remotelyManaged with
              | (.error e, revs) => (.error e, levs ++ revs)
              | (.ok _, revs) => (initTail w mr.serverManagesSnapshot, levs ++ revs)

/-- The first element of `serverManagedRoles` that is neither
`timestamp` nor `snapshot` (the one the loop rejects). -/
def firstInvalidRole : List String → Option String
  | [] => none
  | r :: rest =>
    if r = canonicalTimestampRole || r = canonicalSnapshotRole then firstInvalidRole rest
    else some r

/-- An `Initialize` world whose every step succeeds. -/
def initOkW : InitWorld :=
  ⟨.ok (), .ok (), true, .ok (), fun _ => .ok (), fun _ => .ok (),
   fun _ => .ok (), fun _ => .ok (), .ok (), .ok (), .ok (), .ok ()⟩

/-- An `Initialize` world whose CryptoService cannot create any key. -/
def initNoCreateW : InitWorld :=
  ⟨.ok (), .ok (), true, .ok (), fun _ => .error (.other "cannot create keys"),
   fun _ => .ok (), fun _ => .ok (), fun _ => .ok (), .ok (), .ok (), .ok (), .ok ()⟩

/-! ## `ListTargets` / `GetTargetByName` (client.go) versus the spec's
role-priority enumeration -/
/-- The simplified target record returned to callers. -/
structure Target where
  name : String
  hashes : List (String × String)
  length : Int
deriving DecidableEq, Repr

/-- The extraction performed by `ListTargets` (client.go:421-427): it
reads `r.tufRepo.Targets["targets"].Signed.Targets` only — the base
targets role — and wraps each entry; a missing base role would be a nil
dereference in Go, modelled as `none`. -/
def listTargets (repo : Repo) : Option (List Target) :=
  (alGet canonicalTargetsRole repo.targets).map
    (fun tf => tf.targets.map (fun e => ⟨e.1, e.2.hashes, e.2.length⟩))

/-- A target together with the role it came from, as in the spec's
description of `ListTargets`. -/
structure TargetWithRole where
  name : String
  hashes : List (String × String)
  length : Int
  role : String
deriving DecidableEq, Repr

/-- Character-list prefix test (reduces in the kernel). -/
def charsPfx : List Char → List Char → Bool
  | [], _ => true
  | _ :: _, [] => false
  | c :: cs, d :: ds => c = d && charsPfx cs ds

/-- String prefix test over the underlying character lists. -/
def strHasPfx (p s : String) : Bool := charsPfx p.data s.data

/-- Path-scope test from the spec: some path-prefix rule matches the
target path; the empty string matches everything. -/
def pathInScope (paths : List String) (p : String) : Bool :=
  paths.any (fun q => strHasPfx q p)

/-- The spec's enumeration (spec section 4.3.5), written from the spec's
words for comparison with `listTargets`: visit a role, yield its targets
(filtered by the accumulated path scope) tagged with the role name, then
recurse into its delegations in pre-order; `fuel` bounds the recursion
depth (any value exceeding the delegation-tree depth is equivalent). -/
def specVisit (repo : Repo) : Nat → String → (String → Bool) → List TargetWithRole
  | 0, _, _ => []
  | fuel + 1, role, scope =>
    match alGet role repo.targets with
    | none => []
    | some tf =>
      (tf.targets.filter (fun e => scope e.1)).map
        (fun e => ⟨e.1, e.2.hashes, e.2.length, role⟩) ++
      (tf.delegations.roles.map
        (fun d => specVisit repo fuel d.name
          (fun p => scope p && pathInScope d.paths p))).flatten

/-- First-occurrence-wins shadowing from the spec: keep the first target
of each name in visit order (`seen` holds the names already yielded). -/
def dedupByName : List String → List TargetWithRole → List TargetWithRole
  | _, [] => []
  | seen, t :: rest =>
    if memS t.name seen then dedupByName seen rest
    else t :: dedupByName (t.name :: seen) rest

/-- The spec's `ListTargets` with an empty role list: pre-order DFS from
`targets` with shadowing. -/
def specListTargets (repo : Repo) : List TargetWithRole :=
  dedupByName [] (specVisit repo (repo.targets.length + 1) canonicalTargetsRole
    (fun _ => true))

/-- Result of `GetTargetByName`'s wrapper logic. -/
inductive LookupResult
  | target (t : Target)
  | noTrustData
  | err (e : Err)
deriving DecidableEq, Repr

/-- `GetTargetByName` (client.go:445-452) after the TUF client's
`TargetMeta` lookup returned `(meta, err)`: a nil meta yields the
no-trust-data error (even when `err` is also set); otherwise a non-nil
error propagates; otherwise the target is returned. -/
def getTargetByName (meta : Option FileMeta) (e : Option Err) (name : String) :
    LookupResult :=
  match meta with
  | none => .noTrustData
  | some m =>
    match e with
    | some e' => .err e'
    | none => .target ⟨name, m.hashes, m.length⟩

/-- A repository whose base targets role is empty but delegates
`targets/a` (scope: everything), and `targets/a` carries target `x`. -/
def repoC1 : Repo :=
  ⟨[("targets", ⟨[], ⟨["k1"], [⟨"targets/a", ["k1"], 1, [""], []⟩]⟩⟩),
    ("targets/a", ⟨[("x", ⟨1, [("sha256", "aa")]⟩)], ⟨[], []⟩⟩)]⟩

/-! ## Theorems -/

theorem memS_iff {k : String} {l : List String} : memS k l = true ↔ k ∈ l := by
  induction l with
  | nil => simp [memS]
  | cons x rest ih =>
    by_cases hx : x = k
    · subst hx; simp [memS]
    · simp [memS, hx, ih]
      intro h
      exact absurd h.symm hx

theorem alGet_alMod {β : Type} (k : String) (f : β → β) (l : List (String × β)) :
    alGet k (alMod k f l) = (alGet k l).map f := by
  induction l with
  | nil => simp [alGet, alMod]
  | cons e rest ih =>
    obtain ⟨k', v⟩ := e
    by_cases hk : k' = k
    · subst hk
      simp [alMod, alGet, ih]
    · have hk2 : ¬ k = k' := fun h => hk h.symm
      simp [alMod, alGet, hk, hk2, ih]

theorem alGet_alSet {β : Type} (k : String) (v : β) (l : List (String × β)) :
    alGet k (alSet k v l) = some v := by
  induction l with
  | nil => simp [alGet, alSet]
  | cons e rest ih =>
    obtain ⟨k', v'⟩ := e
    by_cases hk : k = k'
    · simp [alSet, hk, alGet]
    · simp [alSet, hk, alGet, ih]

theorem alGet_alDel {β : Type} (k : String) (l : List (String × β)) :
    alGet k (alDel k l) = none := by
  induction l with
  | nil => simp [alGet, alDel]
  | cons e rest ih =>
    obtain ⟨k', v'⟩ := e
    by_cases hk : k = k'
    · subst hk
      simp [alDel, ih]
    · simp [alDel, hk, alGet, ih]

theorem all_alMod {β : Type} {q : β → Bool} {k : String} {f : β → β}
    {l : List (String × β)} (h : l.all (fun e => q e.2) = true)
    (hf : ∀ v, q v = true → q (f v) = true) :
    (alMod k f l).all (fun e => q e.2) = true := by
  induction l with
  | nil => simp [alMod]
  | cons e rest ih =>
    obtain ⟨k', v⟩ := e
    simp only [List.all_cons, Bool.and_eq_true] at h
    simp only [alMod, List.all_cons, Bool.and_eq_true]
    refine ⟨?_, ih h.2⟩
    by_cases hk : k' = k
    · simp [hk, hf v h.1]
    · simp [hk, h.1]

theorem alGet_all {β : Type} {q : β → Bool} {k : String} {v : β}
    {l : List (String × β)} (h : l.all (fun e => q e.2) = true)
    (hg : alGet k l = some v) : q v = true := by
  induction l with
  | nil => simp [alGet] at hg
  | cons e rest ih =>
    obtain ⟨k', v'⟩ := e
    simp only [List.all_cons, Bool.and_eq_true] at h
    by_cases hk : k = k'
    · simp [alGet, hk] at hg
      exact hg ▸ h.1
    · simp [alGet, hk] at hg
      exact ih h.2 hg

theorem mem_unionL {k : String} {a b : List String} :
    k ∈ unionL a b ↔ k ∈ a ∨ k ∈ b := by
  unfold unionL
  simp only [List.mem_append, List.mem_filter]
  constructor
  · rintro (h | ⟨h, _⟩)
    · exact Or.inl h
    · exact Or.inr h
  · rintro (h | h)
    · exact Or.inl h
    · by_cases ha : k ∈ a
      · exact Or.inl ha
      · refine Or.inr ⟨h, ?_⟩
        have hm : memS k a = false := by
          cases hm : memS k a
          · rfl
          · exact absurd (memS_iff.mp hm) ha
        simp [hm]

theorem pathsInv_targetChange {repo repo' : Repo} {ch : TufChange}
    (hinv : repoPathsInvB repo = true)
    (h : applyTargetChange repo ch = .ok repo') : repoPathsInvB repo' = true := by
  unfold applyTargetChange at h
  split at h
  · split at h
    · split at h
      · simp at h
      · cases h
        exact all_alMod hinv (fun v hv => hv)
    · simp at h
  · split at h
    · split at h
      · simp at h
      · cases h
        exact all_alMod hinv (fun v hv => hv)
    · simp at h

theorem isEmpty_or_of_conflict_false {a b : List String}
    (h : delegationConflict a b = false) : (a.isEmpty || b.isEmpty) = true := by
  unfold delegationConflict at h
  cases ha : a.isEmpty <;> cases hb : b.isEmpty <;> simp [ha, hb] at h ⊢

theorem filePathsOK_createDelegation {td : TufDelegation} {scope : String}
    {ptf tf' : TargetsFile} (hok : filePathsOK ptf = true)
    (h : createDelegation td scope ptf = .ok tf') : filePathsOK tf' = true := by
  unfold createDelegation at h
  split at h
  · simp at h
  · split at h
    · simp at h
    · cases h
      rename_i hconf
      unfold filePathsOK at hok ⊢
      rw [List.all_append, hok]
      simp only [Bool.true_and, List.all_cons, List.all_nil, Bool.and_true]
      exact isEmpty_or_of_conflict_false (Bool.not_eq_true _ ▸ hconf)

theorem filePathsOK_updateDelegation {td : TufDelegation} {scope : String}
    {ptf tf' : TargetsFile} (hok : filePathsOK ptf = true)
    (h : updateDelegation td scope ptf = .ok tf') : filePathsOK tf' = true := by
  unfold updateDelegation at h
  split at h
  · simp at h
  · split at h
    · simp at h
    · cases h
      rename_i role hfind hconf
      unfold filePathsOK at hok ⊢
      simp only [List.all_eq_true] at hok ⊢
      intro r hr
      simp only [List.mem_map] at hr
      obtain ⟨r0, hr0, hr0eq⟩ := hr
      by_cases hn : r0.name = scope
      · rw [← hr0eq, if_pos hn]
        exact isEmpty_or_of_conflict_false (Bool.not_eq_true _ ▸ hconf)
      · rw [← hr0eq, if_neg hn]
        exact hok r0 hr0

theorem filePathsOK_deleteDelegation {scope : String} {ptf : TargetsFile}
    (hok : filePathsOK ptf = true) :
    filePathsOK (deleteDelegation scope ptf) = true := by
  unfold filePathsOK at hok
  unfold filePathsOK deleteDelegation
  simp only [List.all_eq_true] at hok ⊢
  intro r hr
  exact hok r (List.mem_of_mem_filter hr)

theorem pathsInv_delegationChange {repo repo' : Repo} {ch : TufChange}
    (hinv : repoPathsInvB repo = true)
    (h : applyDelegationChange repo ch = .ok repo') : repoPathsInvB repo' = true := by
  unfold applyDelegationChange at h
  split at h
  · -- create
    split at h
    · split at h
      · simp at h
      · split at h
        · simp at h
        · split at h
          · simp at h
          · cases h
            rename_i x ptf hget hvalid xc tf' hcr
            have hok := alGet_all (q := filePathsOK) hinv hget
            exact all_alMod hinv (fun v _ => filePathsOK_createDelegation hok hcr)
    · simp at h
  · split at h
    · -- update
      split at h
      · split at h
        · simp at h
        · split at h
          · simp at h
          · cases h
            rename_i x ptf hget xc tf' hup
            have hok := alGet_all (q := filePathsOK) hinv hget
            exact all_alMod hinv (fun v _ => filePathsOK_updateDelegation hok hup)
      · simp at h
    · split at h
      · -- delete
        split at h
        · cases h
          exact hinv
        · cases h
          rename_i x ptf hget
          have hok := alGet_all (q := filePathsOK) hinv hget
          exact all_alMod hinv (fun v _ => filePathsOK_deleteDelegation hok)
      · simp at h

theorem pathsInv_applyTargetsChange {repo repo' : Repo} {ch : TufChange}
    (hinv : repoPathsInvB repo = true)
    (h : applyTargetsChange repo ch = .ok repo') : repoPathsInvB repo' = true := by
  unfold applyTargetsChange at h
  split at h
  · exact pathsInv_targetChange hinv h
  · split at h
    · exact pathsInv_delegationChange hinv h
    · simp at h

theorem referenced_iff {k : String} {roles : List DelegationRole} :
    referenced k roles = true ↔ ∃ r ∈ roles, k ∈ r.keyIDs := by
  unfold referenced
  simp [List.any_eq_true, memS_iff]

theorem fileKeysOK_iff {tf : TargetsFile} : fileKeysOK tf = true ↔
    (∀ k ∈ tf.delegations.keys, referenced k tf.delegations.roles = true) ∧
    (∀ r ∈ tf.delegations.roles, ∀ kid ∈ r.keyIDs, kid ∈ tf.delegations.keys) := by
  unfold fileKeysOK
  simp [List.all_eq_true, memS_iff]

theorem findRole_mem {scope : String} {r : DelegationRole} {l : List DelegationRole}
    (h : findRole scope l = some r) : r ∈ l ∧ r.name = scope := by
  induction l with
  | nil => simp [findRole] at h
  | cons x rest ih =>
    by_cases hx : x.name = scope
    · simp [findRole, hx] at h
      subst h
      exact ⟨List.mem_cons_self _ _, hx⟩
    · simp [findRole, hx] at h
      obtain ⟨hmem, hname⟩ := ih h
      exact ⟨List.mem_cons_of_mem _ hmem, hname⟩

theorem fileKeysOK_createDelegation {td : TufDelegation} {scope : String}
    {ptf tf' : TargetsFile} (hok : fileKeysOK ptf = true)
    (h : createDelegation td scope ptf = .ok tf') : fileKeysOK tf' = true := by
  unfold createDelegation at h
  split at h
  · simp at h
  · split at h
    · simp at h
    · cases h
      rw [fileKeysOK_iff] at hok ⊢
      obtain ⟨h1, h2⟩ := hok
      constructor
      · intro k hk
        rw [mem_unionL] at hk
        rw [referenced_iff]
        rcases hk with hk | hk
        · obtain ⟨r, hr, hkr⟩ := referenced_iff.mp (h1 k hk)
          exact ⟨r, List.mem_append_left _ hr, hkr⟩
        · exact ⟨_, List.mem_append_right _ (List.mem_singleton_self _), hk⟩
      · intro r hr kid hkid
        rw [mem_unionL]
        rcases List.mem_append.mp hr with hr | hr
        · exact Or.inl (h2 r hr kid hkid)
        · rw [List.mem_singleton] at hr
          subst hr
          exact Or.inr hkid

theorem fileKeysOK_updateDelegation {td : TufDelegation} {scope : String}
    {ptf tf' : TargetsFile} (hok : fileKeysOK ptf = true)
    (h : updateDelegation td scope ptf = .ok tf') : fileKeysOK tf' = true := by
  unfold updateDelegation at h
  split at h
  · simp at h
  · split at h
    · simp at h
    · cases h
      rename_i role hfind hconf
      rw [fileKeysOK_iff] at hok ⊢
      obtain ⟨h1, h2⟩ := hok
      obtain ⟨hrolemem, hrolename⟩ := findRole_mem hfind
      constructor
      · intro k hk
        exact (List.mem_filter.mp hk).2
      · intro r hr kid hkid
        have hrefd : referenced kid
            (ptf.delegations.roles.map
              (fun r => if r.name = scope then updatedRole role td else r)) = true :=
          referenced_iff.mpr ⟨r, hr, hkid⟩
        refine List.mem_filter.mpr ⟨?_, hrefd⟩
        rw [List.mem_map] at hr
        obtain ⟨r0, hr0, hr0eq⟩ := hr
        rw [mem_unionL]
        by_cases hn : r0.name = scope
        · rw [if_pos hn] at hr0eq
          subst hr0eq
          unfold updatedRole at hkid
          rw [mem_unionL] at hkid
          rcases hkid with hkid | hkid
          · exact Or.inl (h2 role hrolemem kid (List.mem_of_mem_filter hkid))
          · exact Or.inr hkid
        · rw [if_neg hn] at hr0eq
          subst hr0eq
          exact Or.inl (h2 r0 hr0 kid hkid)

theorem fileKeysOK_deleteDelegation {scope : String} {ptf : TargetsFile}
    (hok : fileKeysOK ptf = true) :
    fileKeysOK (deleteDelegation scope ptf) = true := by
  rw [fileKeysOK_iff] at hok ⊢
  obtain ⟨h1, h2⟩ := hok
  unfold deleteDelegation
  constructor
  · intro k hk
    exact (List.mem_filter.mp hk).2
  · intro r hr kid hkid
    have hrefd : referenced kid
        (ptf.delegations.roles.filter (fun r => r.name ≠ scope)) = true :=
      referenced_iff.mpr ⟨r, hr, hkid⟩
    exact List.mem_filter.mpr ⟨h2 r (List.mem_of_mem_filter hr) kid hkid, hrefd⟩

theorem keysInv_targetChange {repo repo' : Repo} {ch : TufChange}
    (hinv : repoKeysInvB repo = true)
    (h : applyTargetChange repo ch = .ok repo') : repoKeysInvB repo' = true := by
  unfold applyTargetChange at h
  split at h
  · split at h
    · split at h
      · simp at h
      · cases h
        exact all_alMod hinv (fun v hv => hv)
    · simp at h
  · split at h
    · split at h
      · simp at h
      · cases h
        exact all_alMod hinv (fun v hv => hv)
    · simp at h

theorem keysInv_delegationChange {repo repo' : Repo} {ch : TufChange}
    (hinv : repoKeysInvB repo = true)
    (h : applyDelegationChange repo ch = .ok repo') : repoKeysInvB repo' = true := by
  unfold applyDelegationChange at h
  split at h
  · split at h
    · split at h
      · simp at h
      · split at h
        · simp at h
        · split at h
          · simp at h
          · cases h
            rename_i x ptf hget hvalid xc tf' hcr
            have hok := alGet_all (q := fileKeysOK) hinv hget
            exact all_alMod hinv (fun v _ => fileKeysOK_createDelegation hok hcr)
    · simp at h
  · split at h
    · split at h
      · split at h
        · simp at h
        · split at h
          · simp at h
          · cases h
            rename_i x ptf hget xc tf' hup
            have hok := alGet_all (q := fileKeysOK) hinv hget
            exact all_alMod hinv (fun v _ => fileKeysOK_updateDelegation hok hup)
      · simp at h
    · split at h
      · split at h
        · cases h
          exact hinv
        · cases h
          rename_i x ptf hget
          have hok := alGet_all (q := fileKeysOK) hinv hget
          exact all_alMod hinv (fun v _ => fileKeysOK_deleteDelegation hok)
      · simp at h

theorem keysInv_applyTargetsChange {repo repo' : Repo} {ch : TufChange}
    (hinv : repoKeysInvB repo = true)
    (h : applyTargetsChange repo ch = .ok repo') : repoKeysInvB repo' = true := by
  unfold applyTargetsChange at h
  split at h
  · exact keysInv_targetChange hinv h
  · split at h
    · exact keysInv_delegationChange hinv h
    · simp at h

theorem applyTargetsChange_create_delegation (repo : Repo) (scope : String)
    (td : TufDelegation) (ptf : TargetsFile)
    (hget : alGet (parentRole scope) repo.targets = some ptf)
    (hvalid : isValidDelegationName scope = true)
    (hnex : ptf.delegations.roles.any (fun r => r.name = scope) = false)
    (hconf : delegationConflict td.addPaths td.addPathHashPrefixes = false) :
    applyTargetsChange repo (mkCreateDelegation scope td) = .ok
      ⟨alMod (parentRole scope) (fun _ => createdFile ptf scope td) repo.targets⟩ := by
  unfold applyTargetsChange applyDelegationChange mkCreateDelegation createDelegation createdFile
  simp only [hget, hvalid, hnex, hconf]
  simp [actionCreate, actionUpdate, actionDelete, typeTargetsTarget, typeTargetsDelegation]

theorem applyTargetsChange_delete_delegation (repo : Repo) (scope : String)
    (ptf : TargetsFile)
    (hget : alGet (parentRole scope) repo.targets = some ptf) :
    applyTargetsChange repo (mkDeleteDelegation scope) = .ok
      ⟨alMod (parentRole scope) (fun _ => deleteDelegation scope ptf) repo.targets⟩ := by
  unfold applyTargetsChange applyDelegationChange mkDeleteDelegation
  simp only [hget]
  simp [actionCreate, actionUpdate, actionDelete, typeTargetsTarget, typeTargetsDelegation]

theorem deleteDelegation_createdFile (scope : String) (td : TufDelegation)
    (ptf : TargetsFile)
    (hnex : ptf.delegations.roles.any (fun r => r.name = scope) = false)
    (hkeys : fileKeysOK ptf = true) :
    deleteDelegation scope (createdFile ptf scope td) = ptf := by
  obtain ⟨h1, h2⟩ := fileKeysOK_iff.mp hkeys
  have hnot : ∀ r ∈ ptf.delegations.roles, ¬ r.name = scope := by
    intro r hr hcontra
    have hany : ptf.delegations.roles.any (fun r => r.name = scope) = true :=
      List.any_eq_true.mpr ⟨r, hr, by simp [hcontra]⟩
    rw [hany] at hnex
    cases hnex
  unfold deleteDelegation createdFile
  have hroles : (ptf.delegations.roles ++
      [(⟨scope, td.addKeys, td.newThreshold, td.addPaths,
        td.addPathHashPrefixes⟩ : DelegationRole)]).filter
        (fun r => r.name ≠ scope) = ptf.delegations.roles := by
    rw [List.filter_append]
    have hl : ptf.delegations.roles.filter (fun r => r.name ≠ scope)
        = ptf.delegations.roles := by
      rw [List.filter_eq_self]
      intro r hr
      simp [hnot r hr]
    have hr : ([(⟨scope, td.addKeys, td.newThreshold, td.addPaths,
        td.addPathHashPrefixes⟩ : DelegationRole)]).filter (fun r => r.name ≠ scope) = [] := by
      simp
    rw [hl, hr, List.append_nil]
  have hkeysEq : gcKeys ptf.delegations.roles
      (unionL ptf.delegations.keys td.addKeys) = ptf.delegations.keys := by
    unfold gcKeys unionL
    rw [List.filter_append]
    have ha : ptf.delegations.keys.filter (fun k => referenced k ptf.delegations.roles)
        = ptf.delegations.keys :=
      List.filter_eq_self.mpr (fun k hk => h1 k hk)
    have hb : (td.addKeys.filter (fun x => !memS x ptf.delegations.keys)).filter
        (fun k => referenced k ptf.delegations.roles) = [] := by
      rw [List.filter_eq_nil_iff]
      intro k hk hrefd
      rw [List.mem_filter] at hk
      obtain ⟨hka, hknot⟩ := hk
      obtain ⟨r, hr, hkr⟩ := referenced_iff.mp hrefd
      have hmem := memS_iff.mpr (h2 r hr k hkr)
      rw [hmem] at hknot
      simp at hknot
    rw [ha, hb, List.append_nil]
  simp only [hroles, hkeysEq]

theorem conflict_of_ne_nil {a b : List String} (ha : a ≠ []) (hb : b ≠ []) :
    delegationConflict a b = true := by
  unfold delegationConflict
  cases a with
  | nil => exact absurd rfl ha
  | cons x xs =>
    cases b with
    | nil => exact absurd rfl hb
    | cons y ys => rfl

/-- C2: for every delegated role, `paths` and `pathHashPrefixes` are never
both non-empty — the invariant is preserved by every successful change
application, a delegation create whose payload populates both lists is
rejected, and a delegation update whose resulting role would have both
populated is rejected (so in the pure-state model the parent role is
unchanged — rollback is the error branch returning no new repository). -/
theorem delegation_paths_prefixes_exclusive :
    (∀ (repo repo' : Repo) (ch : TufChange), repoPathsInvB repo = true →
      applyTargetsChange repo ch = .ok repo' → repoPathsInvB repo' = true) ∧
    (∀ (repo : Repo) (scope : String) (td : TufDelegation),
      td.addPaths ≠ [] → td.addPathHashPrefixes ≠ [] →
      ∀ repo', applyTargetsChange repo (mkCreateDelegation scope td) ≠ .ok repo') ∧
    (∀ (repo : Repo) (scope : String) (td : TufDelegation) (ptf : TargetsFile)
      (role : DelegationRole),
      alGet (parentRole scope) repo.targets = some ptf →
      findRole scope ptf.delegations.roles = some role →
      delegationConflict (updatedRole role td).paths (updatedRole role td).pathHashPrefixes
        = true →
      ∀ repo', applyTargetsChange repo (mkUpdateDelegation scope td) ≠ .ok repo') := by
  refine ⟨fun repo repo' ch => pathsInv_applyTargetsChange, ?_, ?_⟩
  · intro repo scope td hpa hpx repo' h
    have hcf := conflict_of_ne_nil hpa hpx
    unfold applyTargetsChange applyDelegationChange mkCreateDelegation createDelegation at h
    simp only [hcf] at h
    simp [actionCreate, actionUpdate, actionDelete, typeTargetsTarget,
      typeTargetsDelegation] at h
    split at h
    · simp at h
    · split at h
      · simp at h
      · split at h
        · simp at h
        · rename_i xc tfc heq
          split at heq
          · simp at heq
          · simp at heq
  · intro repo scope td ptf role hget hfind hconf repo' h
    unfold applyTargetsChange applyDelegationChange mkUpdateDelegation updateDelegation at h
    simp only [hget, hfind, hconf] at h
    simp [actionCreate, actionUpdate, actionDelete, typeTargetsTarget,
      typeTargetsDelegation] at h

/-- C3: the parent's delegation key map holds exactly the keys referenced
by its delegations — the exactness invariant is preserved by every
successful change application, and a delegation create followed by its
delete restores the parent targets file (role list and key set) exactly. -/
theorem delegation_keys_garbage_collected :
    (∀ (repo repo' : Repo) (ch : TufChange), repoKeysInvB repo = true →
      applyTargetsChange repo ch = .ok repo' → repoKeysInvB repo' = true) ∧
    (∀ (repo : Repo) (scope : String) (td : TufDelegation) (ptf : TargetsFile),
      alGet (parentRole scope) repo.targets = some ptf →
      isValidDelegationName scope = true →
      ptf.delegations.roles.any (fun r => r.name = scope) = false →
      delegationConflict td.addPaths td.addPathHashPrefixes = false →
      fileKeysOK ptf = true →
      ∃ repo', applyChangelist repo
          [mkCreateDelegation scope td, mkDeleteDelegation scope] = .ok repo' ∧
        alGet (parentRole scope) repo'.targets = some ptf) := by
  refine ⟨fun repo repo' ch => keysInv_applyTargetsChange, ?_⟩
  intro repo scope td ptf hget hvalid hnex hconf hkeys
  have hcr := applyTargetsChange_create_delegation repo scope td ptf hget hvalid hnex hconf
  have hget1 : alGet (parentRole scope)
      (alMod (parentRole scope) (fun _ => createdFile ptf scope td) repo.targets)
      = some (createdFile ptf scope td) := by
    rw [alGet_alMod, hget]
    rfl
  have hdel := applyTargetsChange_delete_delegation
      ⟨alMod (parentRole scope) (fun _ => createdFile ptf scope td) repo.targets⟩
      scope (createdFile ptf scope td) hget1
  refine ⟨⟨alMod (parentRole scope)
      (fun _ => deleteDelegation scope (createdFile ptf scope td))
      (alMod (parentRole scope) (fun _ => createdFile ptf scope td) repo.targets)⟩, ?_, ?_⟩
  · simp only [applyChangelist, hcr, hdel]
  · show alGet (parentRole scope) (alMod (parentRole scope) _ _) = some ptf
    rw [alGet_alMod, alGet_alMod, hget]
    simp [deleteDelegation_createdFile scope td ptf hnex hkeys]

theorem applyTargetsChange_create_target (repo : Repo) (R T : String) (f : FileMeta)
    (tf : TargetsFile) (h : alGet R repo.targets = some tf) :
    applyTargetsChange repo (mkCreateTarget R T f) = .ok
      ⟨alMod R (fun tf => { tf with targets := alSet T f tf.targets }) repo.targets⟩ := by
  unfold applyTargetsChange applyTargetChange mkCreateTarget
  simp only [h]
  simp [actionCreate, actionDelete, typeTargetsTarget]

theorem applyTargetsChange_delete_target (repo : Repo) (R T : String)
    (tf : TargetsFile) (h : alGet R repo.targets = some tf) :
    applyTargetsChange repo (mkDeleteTarget R T) = .ok
      ⟨alMod R (fun tf => { tf with targets := alDel T tf.targets }) repo.targets⟩ := by
  unfold applyTargetsChange applyTargetChange mkDeleteTarget
  simp only [h]
  simp [actionCreate, actionDelete, typeTargetsTarget]

/-- C4: replaying `create(target, T)` then `delete(target, T)` on an
extant targets role succeeds and leaves `T` absent from that role's
target map; and a delete of a target path is never an error on an extant
role, in particular when the path is not present. -/
theorem target_create_then_delete_cancels (repo : Repo) (R T : String) (f : FileMeta)
    (tf : TargetsFile) (hR : alGet R repo.targets = some tf) :
    (∃ repo', applyChangelist repo [mkCreateTarget R T f, mkDeleteTarget R T] = .ok repo' ∧
      ∃ tf', alGet R repo'.targets = some tf' ∧ alGet T tf'.targets = none) ∧
    (∃ repo'', applyTargetsChange repo (mkDeleteTarget R T) = .ok repo'') := by
  constructor
  · have hcr := applyTargetsChange_create_target repo R T f tf hR
    have hR1 : alGet R (alMod R (fun tf => { tf with targets := alSet T f tf.targets })
        repo.targets) = some { tf with targets := alSet T f tf.targets } := by
      rw [alGet_alMod, hR]
      rfl
    have hdl := applyTargetsChange_delete_target
      ⟨alMod R (fun tf => { tf with targets := alSet T f tf.targets }) repo.targets⟩
      R T _ hR1
    refine ⟨⟨alMod R (fun tf => { tf with targets := alDel T tf.targets })
      (alMod R (fun tf => { tf with targets := alSet T f tf.targets }) repo.targets)⟩,
      ?_, ⟨alDel T (alSet T f tf.targets), tf.delegations⟩, ?_, ?_⟩
    · simp only [applyChangelist, hcr, hdl]
    · rw [alGet_alMod, alGet_alMod, hR]
      rfl
    · exact alGet_alDel T _
  · exact ⟨_, applyTargetsChange_delete_target repo R T tf hR⟩

theorem delegation_paths_prefixes_exclusive_witness :
    (repoPathsInvB repoW = true ∧
      applyTargetsChange repoW (mkCreateDelegation "targets/level1" tdW) = .ok repoW2 ∧
      tdConflictW.addPaths ≠ [] ∧ tdConflictW.addPathHashPrefixes ≠ []) ∧
    repoPathsInvB repoW2 = true ∧
    (∀ repo', applyTargetsChange repoW
      (mkCreateDelegation "targets/level1" tdConflictW) ≠ .ok repo') :=
  ⟨⟨by decide, rfl, by decide, by decide⟩,
   delegation_paths_prefixes_exclusive.1 repoW repoW2
     (mkCreateDelegation "targets/level1" tdW) (by decide) rfl,
   delegation_paths_prefixes_exclusive.2.1 repoW "targets/level1" tdConflictW
     (by decide) (by decide)⟩

theorem delegation_keys_garbage_collected_witness :
    (alGet (parentRole "targets/level1") repoW.targets = some tfEmptyW ∧
      isValidDelegationName "targets/level1" = true ∧
      fileKeysOK tfEmptyW = true) ∧
    (∃ repo', applyChangelist repoW
        [mkCreateDelegation "targets/level1" tdW, mkDeleteDelegation "targets/level1"]
        = .ok repo' ∧
      alGet (parentRole "targets/level1") repo'.targets = some tfEmptyW) :=
  ⟨⟨by decide, by decide, by decide⟩,
   delegation_keys_garbage_collected.2 repoW "targets/level1" tdW tfEmptyW
     (by decide) (by decide) (by decide) (by decide) (by decide)⟩

theorem target_create_then_delete_cancels_witness :
    (alGet "targets" repoW.targets = some tfEmptyW) ∧
    (∃ repo', applyChangelist repoW
        [mkCreateTarget "targets" "latest" fmW, mkDeleteTarget "targets" "latest"]
        = .ok repo' ∧
      ∃ tf', alGet "targets" repo'.targets = some tf' ∧
        alGet "latest" tf'.targets = none) ∧
    (∃ repo'', applyTargetsChange repoW (mkDeleteTarget "targets" "latest") = .ok repo'') :=
  ⟨by decide,
   (target_create_then_delete_cancels repoW "targets" "latest" fmW tfEmptyW (by decide)).1,
   (target_create_then_delete_cancels repoW "targets" "latest" fmW tfEmptyW (by decide)).2⟩

theorem pushFiles_setClearOk (w : PubWorld) (b u : Bool) :
    pushFiles (setClearOk w b) u = pushFiles w u := rfl

theorem publishPull_setClearOk (w : PubWorld) (b : Bool) :
    publishPull (setClearOk w b) = publishPull w := rfl

/-- C9: after a successful push the changelist is drained; a `Clear`
failure is only logged — `Publish` still returns success, and the only
way the changelist is non-empty after a successful `Publish` is that
`Clear` failed (then it keeps its pre-publish contents). -/
theorem publish_clear_failure_only_logged (w : PubWorld) (out : PubOut)
    (hp : publish w = .ok out) :
    (w.clearOk = true → out.changelistAfter = []) ∧
    (w.clearOk = false → out.changelistAfter = w.changelist) ∧
    (∀ b, publish (setClearOk w b) = .ok ⟨out.pushed, if b then [] else w.changelist⟩) := by
  cases hpull : publishPull w with
  | error e =>
    have hpe : publish w = .error e := by
      unfold publish
      rw [hpull]
    rw [hpe] at hp
    simp at hp
  | ok u =>
    have hpe : publish w = publishAfterPull w u := by
      unfold publish
      rw [hpull]
    rw [hpe] at hp
    cases hpf : pushFiles w u with
    | error e =>
      have hq : publishAfterPull w u = .error e := by
        unfold publishAfterPull
        rw [hpf]
      rw [hq] at hp
      simp at hp
    | ok files =>
      have hq : publishAfterPull w u
          = .ok ⟨files, if w.clearOk then [] else w.changelist⟩ := by
        unfold publishAfterPull
        rw [hpf]
      rw [hq] at hp
      cases hp
      refine ⟨?_, ?_, ?_⟩
      · intro hc
        simp [hc]
      · intro hc
        simp [hc]
      · intro b
        have h1 : publishPull (setClearOk w b) = .ok u := by
          rw [publishPull_setClearOk]
          exact hpull
        have h2 : pushFiles (setClearOk w b) u = .ok files := by
          rw [pushFiles_setClearOk]
          exact hpf
        simp only [publish, publishAfterPull, h1, h2]
        simp [setClearOk]

/-- C5: when the remote root fetch fails with `ErrMetaNotFound`,
`Publish` bootstraps from the local store (where an absent snapshot is
tolerated but any other snapshot load error aborts with that error) and
forces the root into the push even though it is neither near expiry nor
dirty. -/
theorem publish_remote_notfound_bootstraps_local (w : PubWorld) (ρ : String)
    (hbc : w.bootstrapClient = .error (.metaNotFound ρ))
    (hgr : w.br.getRoot = .ok ()) (hur : w.br.unmarshalRoot = .ok ())
    (hsr : w.br.setRoot = .ok ()) (hgt : w.br.getTargets = .ok ())
    (hut : w.br.unmarshalTargets = .ok ())
    (hcl : w.getChangelist = .ok ()) (happ : w.applyCl = .ok ())
    (hsroot : w.serializeRoot = .ok ()) (hstg : w.serializeTargets = .ok ())
    (hinit : w.initSnapshot = .ok ()) (hss : w.serializeSnapshot = .ok ())
    (hrs : w.getRemoteStore = .ok ()) (hsm : w.setMultiMeta = .ok ())
    (hne : w.nearExpiryRoot = false) (hdirty : w.rootDirty = false) :
    (∀ σ, w.br.getSnapshot = .error (.metaNotFound σ) →
      publish w = .ok ⟨[canonicalRootRole, canonicalTargetsRole, canonicalSnapshotRole],
        if w.clearOk then [] else w.changelist⟩) ∧
    (∀ e, isMetaNotFound e = false → w.br.getSnapshot = .error e →
      publish w = .error e) := by
  have hsnapstep : (if w.snapshotPresent then Except.ok () else w.initSnapshot)
      = Except.ok () := by
    cases hsp : w.snapshotPresent <;> simp [hinit]
  constructor
  · intro σ hsnap
    have hbr : bootstrapRepo w.br = .ok () := by
      unfold bootstrapRepo exSeq
      simp [hgr, hur, hsr, hgt, hut, hsnap, isMetaNotFound]
    have hpull : publishPull w = .ok true := by
      unfold publishPull
      simp [hbc, hbr, isMetaNotFound]
    have hfiles : computeUpdatedFiles w true
        = .ok [canonicalRootRole, canonicalTargetsRole, canonicalSnapshotRole] := by
      unfold computeUpdatedFiles rootFilesFor snapshotFiles
      simp [hne, hdirty, hsroot, hstg, hss, hsnapstep]
    unfold publish publishAfterPull pushFiles
    simp [hpull, hcl, happ, hfiles, hrs, hsm]
  · intro e hnmf hsnap
    have hbr : bootstrapRepo w.br = .error e := by
      unfold bootstrapRepo exSeq
      simp [hgr, hur, hsr, hgt, hut, hsnap, hnmf]
    have hpull : publishPull w = .error e := by
      unfold publishPull
      simp [hbc, hbr, isMetaNotFound]
    unfold publish
    simp [hpull]

theorem publish_remote_notfound_bootstraps_local_witness :
    (pubW5.bootstrapClient = .error (.metaNotFound "root") ∧
      pubW5.nearExpiryRoot = false ∧ pubW5.rootDirty = false ∧
      pubW5.br.getSnapshot = .error (.metaNotFound "snapshot")) ∧
    publish pubW5 = .ok ⟨[canonicalRootRole, canonicalTargetsRole, canonicalSnapshotRole],
      if pubW5.clearOk then [] else pubW5.changelist⟩ :=
  ⟨⟨rfl, rfl, rfl, rfl⟩,
   (publish_remote_notfound_bootstraps_local pubW5 "root" rfl rfl rfl rfl rfl rfl rfl
     rfl rfl rfl rfl rfl rfl rfl rfl rfl).1 "snapshot" rfl⟩

/-- C6 counterexample: with snapshot *not* server-managed in the Root and
snapshot signing failing with `ErrNoKeys`, `Publish` succeeds (pushing
only `targets`) rather than failing with `ErrBadHierarchy` — the code
swallows `ErrNoKeys` unconditionally. -/
theorem publish_noKeys_unconditional_counterexample :
    pubW6.serverManagedSnapshotInRoot = false ∧
    pubW6.serializeSnapshot = .error .noKeys ∧
    publish pubW6 = .ok ⟨[canonicalTargetsRole], []⟩ :=
  ⟨rfl, rfl, rfl⟩

theorem rootFilesFor_no_snapshot (w : PubWorld) (u : Bool) (rfs : List String)
    (h : rootFilesFor w u = .ok rfs) : canonicalSnapshotRole ∉ rfs := by
  unfold rootFilesFor at h
  split at h
  · split at h
    · simp at h
    · cases h
      decide
  · cases h
    decide

/-- C6 amended: `ErrNoKeys` from snapshot signing is always swallowed —
the snapshot blob is omitted from the push and `Publish` proceeds,
independently of whether the Root designates the snapshot role as
server-managed; any other snapshot-signing error is fatal to `Publish`. -/
theorem publish_snapshot_noKeys_always_swallowed (w : PubWorld) (u : Bool)
    (rfs : List String)
    (hcl : w.getChangelist = .ok ()) (happ : w.applyCl = .ok ())
    (hpull : publishPull w = .ok u)
    (hrfs : rootFilesFor w u = .ok rfs)
    (hstg : w.serializeTargets = .ok ())
    (hsnapstep : (if w.snapshotPresent then Except.ok () else w.initSnapshot)
      = Except.ok ()) :
    (∀ b, publish (setServerManagedSnapshot w b) = publish w) ∧
    (w.serializeSnapshot = .error .noKeys →
      w.getRemoteStore = .ok () → w.setMultiMeta = .ok () →
      publish w = .ok ⟨rfs ++ [canonicalTargetsRole],
        if w.clearOk then [] else w.changelist⟩ ∧
      canonicalSnapshotRole ∉ rfs ++ [canonicalTargetsRole]) ∧
    (∀ e, e ≠ .noKeys → w.serializeSnapshot = .error e → publish w = .error e) := by
  refine ⟨fun b => rfl, ?_, ?_⟩
  · intro hsk hrs hsm
    have hsf : snapshotFiles w = .ok [] := by
      unfold snapshotFiles
      rw [hsk]
    have hfiles : computeUpdatedFiles w u = .ok (rfs ++ [canonicalTargetsRole]) := by
      unfold computeUpdatedFiles
      simp [hrfs, hstg, hsnapstep, hsf]
    constructor
    · unfold publish publishAfterPull pushFiles
      simp [hpull, hcl, happ, hfiles, hrs, hsm]
    · intro hmem
      rcases List.mem_append.mp hmem with hmem | hmem
      · exact rootFilesFor_no_snapshot w u rfs hrfs hmem
      · rw [List.mem_singleton] at hmem
        exact absurd hmem (by decide)
  · intro e hne hsk
    have hsf : snapshotFiles w = .error e := by
      unfold snapshotFiles
      rw [hsk]
      cases e with
      | noKeys => exact absurd rfl hne
      | metaNotFound r => rfl
      | serverUnavailable c => rfl
      | expired r => rfl
      | invalidRemoteRole r => rfl
      | other m => rfl
    have hfiles : computeUpdatedFiles w u = .error e := by
      unfold computeUpdatedFiles
      simp [hrfs, hstg, hsnapstep, hsf]
    unfold publish publishAfterPull pushFiles
    simp [hpull, hcl, happ, hfiles]

theorem publish_snapshot_noKeys_always_swallowed_witness :
    (pubW6.serializeSnapshot = .error .noKeys ∧
      rootFilesFor pubW6 false = .ok [] ∧ publishPull pubW6 = .ok false) ∧
    publish pubW6 = .ok ⟨[] ++ [canonicalTargetsRole],
      if pubW6.clearOk then [] else pubW6.changelist⟩ ∧
    canonicalSnapshotRole ∉ ([] : List String) ++ [canonicalTargetsRole] :=
  ⟨⟨rfl, rfl, rfl⟩,
   ((publish_snapshot_noKeys_always_swallowed pubW6 false [] rfl rfl rfl rfl rfl
     rfl).2.1 rfl rfl rfl).1,
   ((publish_snapshot_noKeys_always_swallowed pubW6 false [] rfl rfl rfl rfl rfl
     rfl).2.1 rfl rfl rfl).2⟩

theorem publish_clear_failure_only_logged_witness :
    publish pubW9 = .ok ⟨[canonicalTargetsRole, canonicalSnapshotRole], []⟩ ∧
    (pubW9.clearOk = true →
      (⟨[canonicalTargetsRole, canonicalSnapshotRole], []⟩ : PubOut).changelistAfter = []) ∧
    (∀ b, publish (setClearOk pubW9 b) =
      .ok ⟨[canonicalTargetsRole, canonicalSnapshotRole],
        if b then [] else pubW9.changelist⟩) :=
  ⟨rfl,
   (publish_clear_failure_only_logged pubW9 _ rfl).1,
   (publish_clear_failure_only_logged pubW9 _ rfl).2.2⟩

/-- C10: a remote `ErrMetaNotFound` for the root is returned immediately
without consulting the local cache; any other failure to obtain the root
from the remote — a fetch error or a failure to set up the remote store —
falls back to the locally cached root and proceeds with it, and the
original remote error is returned only when the cache cannot supply a
root. -/
theorem bcFinish_no_fetch_events (w : BCWorld) (b : Nat) :
    BCEvent.remoteGet ∉ (bcFinish w b).2 ∧ BCEvent.cacheGet ∉ (bcFinish w b).2 := by
  unfold bcFinish
  split
  · simp
  · split
    · simp
    · split
      · simp
      · split
        · simp
        · simp

theorem bootstrapClient_cache_fallback (w : BCWorld) :
    (∀ ρ, w.remoteSetup = .ok () → w.remoteGetRoot = .error (.metaNotFound ρ) →
      bootstrapClient w = (.error (.metaNotFound ρ), [.remoteSetup, .remoteGet]) ∧
      .cacheGet ∉ (bootstrapClient w).2) ∧
    (∀ e, isMetaNotFound e = false → w.remoteSetup = .ok () →
      w.remoteGetRoot = .error e →
      .cacheGet ∈ (bootstrapClient w).2 ∧
      (∀ c, w.cacheGetRoot = .error c → (bootstrapClient w).1 = .error e) ∧
      (∀ b, w.cacheGetRoot = .ok b → (bootstrapClient w).1 = (bcFinish w b).1)) ∧
    (∀ e, isMetaNotFound e = false → w.remoteSetup = .error e →
      .remoteGet ∉ (bootstrapClient w).2 ∧
      .cacheGet ∈ (bootstrapClient w).2 ∧
      (∀ c, w.cacheGetRoot = .error c → (bootstrapClient w).1 = .error e) ∧
      (∀ b, w.cacheGetRoot = .ok b → (bootstrapClient w).1 = (bcFinish w b).1)) := by
  refine ⟨?_, ?_, ?_⟩
  · intro ρ hsetup hget
    have hbc : bootstrapClient w = (.error (.metaNotFound ρ), [.remoteSetup, .remoteGet]) := by
      unfold bootstrapClient
      simp [hsetup, hget, isMetaNotFound]
    refine ⟨hbc, ?_⟩
    rw [hbc]
    simp
  · intro e hnmf hsetup hget
    cases hc : w.cacheGetRoot with
    | error c =>
      have hbc : bootstrapClient w = (.error e, [.remoteSetup, .remoteGet, .cacheGet]) := by
        unfold bootstrapClient
        simp [hsetup, hget, hnmf, hc]
      refine ⟨by rw [hbc]; simp, ?_, ?_⟩
      · intro c' hc'
        rw [hbc]
      · intro b hb
        exact Except.noConfusion hb
    | ok b =>
      have hbc : bootstrapClient w
          = prependEvents [.remoteSetup, .remoteGet, .cacheGet] (bcFinish w b) := by
        unfold bootstrapClient
        simp [hsetup, hget, hnmf, hc]
      refine ⟨by rw [hbc]; simp [prependEvents], ?_, ?_⟩
      · intro c' hc'
        exact Except.noConfusion hc'
      · intro b' hb'
        injection hb' with hbb'
        subst hbb'
        rw [hbc]
        rfl
  · intro e hnmf hsetup
    cases hc : w.cacheGetRoot with
    | error c =>
      have hbc : bootstrapClient w = (.error e, [.remoteSetup, .cacheGet]) := by
        unfold bootstrapClient
        simp [hsetup, hnmf, hc]
      refine ⟨by rw [hbc]; simp, by rw [hbc]; simp, ?_, ?_⟩
      · intro c' hc'
        rw [hbc]
      · intro b hb
        exact Except.noConfusion hb
    | ok b =>
      have hbc : bootstrapClient w
          = prependEvents [.remoteSetup, .cacheGet] (bcFinish w b) := by
        unfold bootstrapClient
        simp [hsetup, hnmf, hc]
      refine ⟨?_, by rw [hbc]; simp [prependEvents], ?_, ?_⟩
      · rw [hbc]
        simp only [prependEvents, List.mem_append]
        intro hmem
        rcases hmem with hmem | hmem
        · simp at hmem
        · exact (bcFinish_no_fetch_events w b).1 hmem
      · intro c' hc'
        exact Except.noConfusion hc'
      · intro b' hb'
        injection hb' with hbb'
        subst hbb'
        rw [hbc]
        rfl

theorem bootstrapClient_cache_fallback_witness :
    (isMetaNotFound (.serverUnavailable 500) = false ∧
      bcW.remoteSetup = .ok () ∧
      bcW.remoteGetRoot = .error (.serverUnavailable 500)) ∧
    BCEvent.cacheGet ∈ (bootstrapClient bcW).2 ∧
    (bootstrapClient bcW).1 = (bcFinish bcW 7).1 :=
  ⟨⟨rfl, rfl, rfl⟩,
   ((bootstrapClient_cache_fallback bcW).2.1 (.serverUnavailable 500) rfl rfl rfl).1,
   ((bootstrapClient_cache_fallback bcW).2.1 (.serverUnavailable 500) rfl rfl rfl).2.2 7 rfl⟩

theorem managedRolesLoop_firstInvalid (roles : List String) (r : String) :
    ∀ acc, firstInvalidRole roles = some r →
      managedRolesLoop roles acc = .error (.invalidRemoteRole r) := by
  induction roles with
  | nil =>
    intro acc h
    simp [firstInvalidRole] at h
  | cons x rest ih =>
    intro acc h
    unfold firstInvalidRole at h
    unfold managedRolesLoop
    by_cases hts : x = canonicalTimestampRole
    · simp only [hts] at h ⊢
      simp at h ⊢
      exact ih acc h
    · by_cases hss : x = canonicalSnapshotRole
      · simp only [hts, hss] at h ⊢
        simp [hts] at h ⊢
        exact ih _ h
      · simp [hts, hss] at h ⊢
        rw [h]

theorem managedRolesLoop_ok (roles : List String) :
    ∀ acc, firstInvalidRole roles = none →
      (acc.locallyManaged = [canonicalTargetsRole, canonicalSnapshotRole] ∨
        acc.locallyManaged = [canonicalTargetsRole]) →
      ∃ mr, managedRolesLoop roles acc = .ok mr ∧
        (mr.locallyManaged = [canonicalTargetsRole, canonicalSnapshotRole] ∨
          mr.locallyManaged = [canonicalTargetsRole]) := by
  induction roles with
  | nil =>
    intro acc h hacc
    exact ⟨acc, rfl, hacc⟩
  | cons x rest ih =>
    intro acc h hacc
    unfold firstInvalidRole at h
    unfold managedRolesLoop
    by_cases hts : x = canonicalTimestampRole
    · simp [hts] at h ⊢
      exact ih acc h hacc
    · by_cases hss : x = canonicalSnapshotRole
      · simp [hts, hss] at h ⊢
        exact ih _ h (Or.inr rfl)
      · simp [hts, hss] at h

/-- C7: any element of `serverManagedRoles` other than `timestamp` and
`snapshot` makes `Initialize` fail with `ErrInvalidRemoteRole` for the
first such element, with an empty key-acquisition trace (no key created,
no HTTP request); and an explicit `timestamp` entry is a no-op since the
timestamp is always implicitly server-managed. -/
theorem Initialize_invalid_remote_role (w : InitWorld) (roles : List String) (r : String)
    (hpk : w.getPrivateKey = .ok ())
    (hbad : firstInvalidRole roles = some r) :
    Initialize w roles = (.error (.invalidRemoteRole r), []) ∧
    (∀ roles', Initialize w (canonicalTimestampRole :: roles') = Initialize w roles') := by
  constructor
  · unfold Initialize
    simp [hpk, managedRolesLoop_firstInvalid roles r startingManagedRoles hbad]
  · intro roles'
    have hml : managedRolesLoop (canonicalTimestampRole :: roles') startingManagedRoles
        = managedRolesLoop roles' startingManagedRoles := by
      simp [managedRolesLoop]
    unfold Initialize
    rw [hml]

theorem createLocalKeys_events (w : InitWorld) (roles : List String) :
    ∀ ev ∈ (createLocalKeys w roles).2, ∃ r, ev = InitEvent.createLocal r := by
  induction roles with
  | nil =>
    intro ev hev
    simp [createLocalKeys] at hev
  | cons x rest ih =>
    intro ev hev
    unfold createLocalKeys at hev
    cases hck : w.createKey x with
    | error e =>
      rw [hck] at hev
      simp at hev
      exact ⟨x, hev⟩
    | ok u =>
      rw [hck] at hev
      cases hak : w.addLocalKey x with
      | error e =>
        rw [hak] at hev
        simp at hev
        exact ⟨x, hev⟩
      | ok u' =>
        rw [hak] at hev
        simp at hev
        rcases hev with hev | hev
        · exact ⟨x, hev⟩
        · exact ih ev hev

theorem fetchRemoteKeys_events (w : InitWorld) (roles : List String) :
    ∀ ev ∈ (fetchRemoteKeys w roles).2, ∃ r, ev = InitEvent.httpKeyFetch r := by
  induction roles with
  | nil =>
    intro ev hev
    simp [fetchRemoteKeys] at hev
  | cons x rest ih =>
    intro ev hev
    unfold fetchRemoteKeys at hev
    cases hck : w.getRemoteKey x with
    | error e =>
      rw [hck] at hev
      simp at hev
      exact ⟨x, hev⟩
    | ok u =>
      rw [hck] at hev
      cases hak : w.addRemoteKey x with
      | error e =>
        rw [hak] at hev
        simp at hev
        exact ⟨x, hev⟩
      | ok u' =>
        rw [hak] at hev
        simp at hev
        rcases hev with hev | hev
        · exact ⟨x, hev⟩
        · exact ih ev hev

/-- C8: in every run of `Initialize`, the key-acquisition trace is all
local `CryptoService.Create` calls followed by all remote key fetches (no
HTTP request ever precedes a local key creation); and when the
CryptoService cannot create keys, `Initialize` (with valid roles and the
earlier steps succeeding) returns that error after attempting only the
first local key — the trace holds no HTTP request at all. -/
theorem Initialize_local_keys_before_remote (w : InitWorld) (roles : List String)
    (e : Err) :
    (∃ pre post, (Initialize w roles).2 = pre ++ post ∧
      (∀ ev ∈ pre, ∃ r, ev = InitEvent.createLocal r) ∧
      (∀ ev ∈ post, ∃ r, ev = InitEvent.httpKeyFetch r)) ∧
    (firstInvalidRole roles = none → w.getPrivateKey = .ok () →
      w.generateCert = .ok () → w.rootKeyAlgoOK = true → w.addRootKey = .ok () →
      (∀ ρ, w.createKey ρ = .error e) →
      Initialize w roles = (.error e, [.createLocal canonicalTargetsRole])) := by
  constructor
  · unfold Initialize
    cases hpk : w.getPrivateKey with
    | error e0 => exact ⟨[], [], rfl, by simp, by simp⟩
    | ok u0 =>
      cases hmr : managedRolesLoop roles startingManagedRoles with
      | error e0 => exact ⟨[], [], rfl, by simp, by simp⟩
      | ok mr =>
        cases hgc : w.generateCert with
        | error e0 => exact ⟨[], [], rfl, by simp, by simp⟩
        | ok u1 =>
          cases halgo : w.rootKeyAlgoOK with
          | false =>
            exact ⟨[], [], rfl, by simp, by simp⟩
          | true =>
            cases hark : w.addRootKey with
            | error e0 => exact ⟨[], [], rfl, by simp, by simp⟩
            | ok u2 =>
              have hlevs := createLocalKeys_events w mr.locallyManaged
              have hrevs := fetchRemoteKeys_events w mr.remotelyManaged
              cases hcl : createLocalKeys w mr.locallyManaged with
              | mk res levs =>
                rw [hcl] at hlevs
                cases res with
                | error e0 =>
                  simp only [hcl]
                  exact ⟨levs, [], (List.append_nil _).symm,
                    fun ev hev => hlevs ev hev, by simp⟩
                | ok u3 =>
                  cases hfr : fetchRemoteKeys w mr.remotelyManaged with
                  | mk res' revs =>
                    rw [hfr] at hrevs
                    cases res' with
                    | error e0 =>
                      simp only [hcl, hfr]
                      exact ⟨levs, revs, rfl, fun ev hev => hlevs ev hev,
                        fun ev hev => hrevs ev hev⟩
                    | ok u4 =>
                      simp only [hcl, hfr]
                      exact ⟨levs, revs, rfl, fun ev hev => hlevs ev hev,
                        fun ev hev => hrevs ev hev⟩
  · intro hok hpk hgc halgo hark hfail
    obtain ⟨mr, hmr, hloc⟩ := managedRolesLoop_ok roles startingManagedRoles hok (Or.inl rfl)
    have hcl : createLocalKeys w mr.locallyManaged
        = (.error e, [.createLocal canonicalTargetsRole]) := by
      rcases hloc with hloc | hloc <;>
        (rw [hloc]; unfold createLocalKeys; simp [hfail])
    unfold Initialize
    simp [hpk, hmr, hgc, halgo, hark, hcl]

theorem Initialize_invalid_remote_role_witness :
    (initOkW.getPrivateKey = .ok () ∧ firstInvalidRole ["root"] = some "root") ∧
    Initialize initOkW ["root"] = (.error (.invalidRemoteRole "root"), []) ∧
    Initialize initOkW [canonicalTimestampRole] = Initialize initOkW [] :=
  ⟨⟨rfl, rfl⟩,
   (Initialize_invalid_remote_role initOkW ["root"] "root" rfl rfl).1,
   (Initialize_invalid_remote_role initOkW ["root"] "root" rfl rfl).2 []⟩

theorem Initialize_local_keys_before_remote_witness :
    (firstInvalidRole ["snapshot"] = none ∧
      (∀ ρ, initNoCreateW.createKey ρ = .error (.other "cannot create keys"))) ∧
    Initialize initNoCreateW ["snapshot"]
      = (.error (.other "cannot create keys"), [.createLocal canonicalTargetsRole]) ∧
    (∃ pre post, (Initialize initOkW ["snapshot"]).2 = pre ++ post ∧
      (∀ ev ∈ pre, ∃ r, ev = InitEvent.createLocal r) ∧
      (∀ ev ∈ post, ∃ r, ev = InitEvent.httpKeyFetch r)) :=
  ⟨⟨rfl, fun _ => rfl⟩,
   (Initialize_local_keys_before_remote initNoCreateW ["snapshot"]
     (.other "cannot create keys")).2 rfl rfl rfl rfl rfl (fun _ => rfl),
   (Initialize_local_keys_before_remote initOkW ["snapshot"]
     (.other "cannot create keys")).1⟩

/-- C1 counterexample: on `repoC1` the spec's DFS enumeration yields the
delegated target `x` from role `targets/a`, but `ListTargets` yields
nothing — the code never visits delegations and attaches no roles. -/
theorem listTargets_ignores_delegations_counterexample :
    listTargets repoC1 = some [] ∧
    (specListTargets repoC1).map (fun t => (t.name, t.role)) = [("x", "targets/a")] :=
  ⟨rfl, rfl⟩

theorem dedupByName_eq_self (l : List TargetWithRole) :
    ∀ seen, (l.map (fun t => t.name)).Nodup →
      (∀ t ∈ l, memS t.name seen = false) → dedupByName seen l = l := by
  induction l with
  | nil =>
    intro seen _ _
    rfl
  | cons t rest ih =>
    intro seen h hseen
    simp only [List.map_cons, List.nodup_cons] at h
    have hm : memS t.name seen = false := hseen t (List.mem_cons_self _ _)
    have hrest : ∀ u ∈ rest, memS u.name (t.name :: seen) = false := by
      intro u hu
      cases hmem : memS u.name (t.name :: seen)
      · rfl
      · rw [memS_iff] at hmem
        rcases List.mem_cons.mp hmem with hmem | hmem
        · exact absurd (hmem ▸ List.mem_map_of_mem (fun t => t.name) hu) h.1
        · have hfalse := hseen u (List.mem_cons_of_mem _ hu)
          rw [memS_iff.mpr hmem] at hfalse
          exact absurd hfalse (by decide)
    rw [dedupByName, hm]
    simp only [Bool.false_eq_true, if_false]
    rw [ih (t.name :: seen) h.2 hrest]

/-- C1 amended: `ListTargets` returns exactly the targets of the base
`targets` role, with no delegation traversal and no role attribution; it
therefore agrees with the spec's DFS/shadowing enumeration precisely on
repositories whose base role has no delegations.  `GetTargetByName`
reports no-trust-data exactly when the TUF client's `TargetMeta` lookup
yields no metadata. -/
theorem listTargets_base_role_only (repo : Repo) (tf : TargetsFile)
    (hget : alGet "targets" repo.targets = some tf)
    (hnd : tf.delegations.roles = [])
    (hnodup : (tf.targets.map (fun e => e.1)).Nodup) :
    listTargets repo
      = some (tf.targets.map (fun e => Target.mk e.1 e.2.hashes e.2.length)) ∧
    (specListTargets repo).map (fun t => Target.mk t.name t.hashes t.length)
      = tf.targets.map (fun e => Target.mk e.1 e.2.hashes e.2.length) ∧
    (∀ (m : Option FileMeta) (e : Option Err) (n : String),
      getTargetByName m e n = .noTrustData ↔ m = none) := by
  refine ⟨?_, ?_, ?_⟩
  · unfold listTargets canonicalTargetsRole
    rw [hget]
    rfl
  · have hvisit : specVisit repo (repo.targets.length + 1) canonicalTargetsRole
        (fun _ => true)
        = tf.targets.map (fun e =>
            TargetWithRole.mk e.1 e.2.hashes e.2.length canonicalTargetsRole) := by
      rw [specVisit]
      unfold canonicalTargetsRole
      rw [hget]
      simp [hnd]
    unfold specListTargets
    rw [hvisit]
    have hnames : ((tf.targets.map (fun e =>
        TargetWithRole.mk e.1 e.2.hashes e.2.length canonicalTargetsRole)).map
          (fun t => t.name)).Nodup := by
      rw [List.map_map]
      exact hnodup
    rw [dedupByName_eq_self _ [] hnames (fun t _ => rfl), List.map_map]
    rfl
  · intro m e n
    cases m with
    | none => simp [getTargetByName]
    | some v =>
      cases e with
      | none => simp [getTargetByName]
      | some e' => simp [getTargetByName]

theorem listTargets_base_role_only_witness :
    (alGet "targets" repoW.targets = some tfEmptyW ∧
      tfEmptyW.delegations.roles = []) ∧
    listTargets repoW
      = some (tfEmptyW.targets.map (fun e => Target.mk e.1 e.2.hashes e.2.length)) ∧
    (specListTargets repoW).map (fun t => Target.mk t.name t.hashes t.length)
      = tfEmptyW.targets.map (fun e => Target.mk e.1 e.2.hashes e.2.length) :=
  ⟨⟨rfl, rfl⟩,
   (listTargets_base_role_only repoW tfEmptyW rfl rfl (by simp [tfEmptyW])).1,
   (listTargets_base_role_only repoW tfEmptyW rfl rfl (by simp [tfEmptyW])).2.1⟩

end Notary


